import Mathlib

/-!
Verification model of the `mssmt-rs` crate: a Merkle Sum Sparse Merkle Tree
(MS-SMT) with a regular engine (`src/src/tree/regular.rs`), a compact engine
(`src/src/tree/compact.rs`), an in-memory hash-keyed store
(`src/src/db/memory.rs`), and a proof codec (`src/src/proof.rs`).

Modelling conventions.

Bytes are `Nat` values, byte strings are `List Nat`, and the `u64` sums of the
source are `Nat` with overflow made explicit (`u64add` reduces mod `2 ^ 64`,
mirroring the unchecked `+` in `Branch::new`; `checked_add` is modelled by the
comparison against `U64MAX`).

The hash function `H` is kept abstract as the free term algebra `MHash`: the
three hashing contracts of the source (`EmptyLeaf.hash = H(0u64_be)`,
`Leaf.hash = H(value ++ sum_be)`, `Branch.hash = H(lh ++ rh ++ sum_be)`) become
the three constructors. This models a collision-free hash, which is the
abstraction level of the specification ("Must be collision resistant").

Rust panics (out-of-bounds indexing of the `empty_tree` array or of slices)
are modelled by `Option`: a result of `none` means the source panics.
A partial operation that returns `Result<T, TreeError<...>>` and can also
panic therefore becomes `Option (Except TreeError T)` here.

The store `MemoryDb` keeps its three hash-keyed `HashMap`s as association
lists with insert-replaces-existing-key semantics, which gives the same
lookup behaviour.
-/

deriving instance DecidableEq for Except

namespace MSSMTModel

/-- Largest value of the 64-bit `Sum` type of the source (`u64::MAX`). -/
def U64MAX : Nat := 2 ^ 64 - 1

/-- Wrapping 64-bit addition: the `left.sum() + right.sum()` of `Branch::new`
(`src/src/node/branch.rs` line 21) on the `u64` type. -/
def u64add (a b : Nat) : Nat := (a + b) % 2 ^ 64

/-- Bit addressing of keys, from `src/src/tree/regular.rs` lines 23-28:
`(key[index / 8] >> (index % 8)) & 1`. Callers always index in bounds
(`index / 8 < key.len()`); `getD` with default 0 keeps the model total. -/
def bit_index (index : Nat) (key : List Nat) : Nat :=
  ((key.getD (index / 8) 0) >>> (index % 8)) % 2

/-- Hash values as the free term algebra over the three hashing contracts of
the source (spec section 6, "Hashing contracts"): `leafH value sum` stands for
`H(value ++ sum_u64_be)` (built by `NonEmptyLeaf::new`), `emptyH` for
`H([0u8; 8])` (built by `EmptyLeaf::new`), and `branchH l r sum` for
`H(l ++ r ++ sum_u64_be)` (built by `Branch::new`). -/
inductive MHash where
  | leafH (value : List Nat) (sum : Nat)
  | emptyH
  | branchH (l r : MHash) (sum : Nat)
deriving DecidableEq, Repr

/-- Closed error taxonomy of `src/src/error.rs`. The `DbError` wrapping
variant is omitted: the `MemoryDb` backend used throughout has `DbError = ()`
and never constructs it. -/
inductive TreeError where
  | NodeNotFound
  | ExpectedBranch
  | ExpectedLeaf
  | ExpectedCompactLeaf
  | ExpectedEmptyLeaf
  | SumOverflow
  | InvalidMerkleProof
deriving DecidableEq, Repr

/-- The `Leaf` enum of `src/src/node/leaf.rs`: either a `NonEmptyLeaf`
(value, sum, with hash `H(value ++ sum_be)`) or an `EmptyLeaf`. -/
inductive Leaf where
  | NonEmpty (value : List Nat) (sum : Nat)
  | Empty
deriving DecidableEq, Repr

/-- The constructor `Leaf::new` (`src/src/node/leaf.rs` lines 12-18): an empty
value yields an `EmptyLeaf`. -/
def Leaf.new (value : List Nat) (sum : Nat) : Leaf :=
  if value = [] then .Empty else .NonEmpty value sum

/-- Hash of a leaf: `NonEmptyLeaf::new` computes `H(value ++ sum_be)`;
`EmptyLeaf::new` computes `H([0u8; 8])`. -/
def Leaf.hash : Leaf → MHash
  | .NonEmpty v s => .leafH v s
  | .Empty => .emptyH

/-- Sum of a leaf (`EmptyLeaf::sum` returns 0). -/
def Leaf.sum : Leaf → Nat
  | .NonEmpty _ s => s
  | .Empty => 0

/-- The `CompactLeaf` struct of `src/src/node/compact.rs` lines 13-18. -/
structure CompactLeaf where
  node_hash : MHash
  leaf : Leaf
  key : List Nat
deriving DecidableEq, Repr

/-- The `Node` enum of `src/src/node/mod.rs` lines 41-50. A `Branch` is kept
inline as the `branch` constructor carrying its children, cached sum and
cached hash, exactly the fields of `src/src/node/branch.rs` lines 11-17. -/
inductive Node where
  | leaf (l : Leaf)
  | branch (left right : Node) (sum : Nat) (node_hash : MHash)
  | compact (c : CompactLeaf)
  | computed (node_hash : MHash) (sum : Nat)
deriving DecidableEq, Repr

/-- Cached hash of a node (`Node::hash`, no hashing done here). -/
def Node.hash : Node → MHash
  | .leaf l => l.hash
  | .branch _ _ _ h => h
  | .compact c => c.node_hash
  | .computed h _ => h

/-- Cached sum of a node (`Node::sum`). -/
def Node.sum : Node → Nat
  | .leaf l => l.sum
  | .branch _ _ s _ => s
  | .compact c => c.leaf.sum
  | .computed _ s => s

/-- The constructor `Branch::new` (`src/src/node/branch.rs` lines 20-39):
`sum = left.sum + right.sum` (wrapping u64 addition) and
`hash = H(left.hash ++ right.hash ++ sum_be)`. `Branch::new_with_arc_children`
(lines 41-63) performs the identical computation. -/
def Branch.new (left right : Node) : Node :=
  .branch left right (u64add left.sum right.sum)
    (.branchH left.hash right.hash (u64add left.sum right.sum))

/-- Canonical empty subtree with `k` levels of branches below it:
`EmptyTree.node 0` is the empty leaf and `EmptyTree.node (k+1)` the branch
with two copies of `EmptyTree.node k`, following `EmptyTree::build_tree`
(`src/src/tree/empty.rs` lines 22-41). The source array entry
`empty_tree[i]` (level `i` of a depth-`8N` tree) is `EmptyTree.node (8*N - i)`. -/
def EmptyTree.node : Nat → Node
  | 0 => .leaf .Empty
  | k + 1 => Branch.new (EmptyTree.node k) (EmptyTree.node k)

/-- Indexing `empty_tree[i]` for a tree of `HASH_SIZE = N`: the array built by
`EmptyTree::build_tree` has `8*N + 1` entries, index `8*N` being the empty
leaf; indexing past the end is a Rust panic, modelled as `none`. -/
def emptyTreeGet (N i : Nat) : Option Node :=
  if i ≤ 8 * N then some (EmptyTree.node (8 * N - i)) else none

/-- Shared ascending recursion for the walk-up loops of `CompactLeaf::new`
(`src/src/node/compact.rs` lines 22-43) and `CompactLeaf::extract`
(lines 75-91). The call with count `k+1` performs the loop iteration at index
`i = 8*N - (k+1)`: it wraps the already-built subtree with a branch whose
other child is `empty_tree[i+1] = EmptyTree.node k`, ordered by
`bit_index i key`. `CompactLeaf.walkUpAux N key leafN c` is the state of
`current` after the iterations at indices `8*N - 1` down to `8*N - c`. -/
def CompactLeaf.walkUpAux (N : Nat) (key : List Nat) (leafN : Leaf) : Nat → Node
  | 0 => .leaf leafN
  | k + 1 =>
    let current := CompactLeaf.walkUpAux N key leafN k
    if bit_index (8 * N - (k + 1)) key = 0 then Branch.new current (EmptyTree.node k)
    else Branch.new (EmptyTree.node k) current

/-- The constructor `CompactLeaf::new` (`src/src/node/compact.rs` lines
22-43): the loop `for i in (height..HASH_SIZE*8).rev()` runs the iterations at
indices `8*N - 1` down to `height`, that is `8*N - height` of them. -/
def CompactLeaf.new (N height : Nat) (key : List Nat) (leafN : Leaf) : CompactLeaf :=
  { node_hash := (CompactLeaf.walkUpAux N key leafN (8 * N - height)).hash
    leaf := leafN
    key := key }

/-- The method `CompactLeaf::extract` (`src/src/node/compact.rs` lines 75-91):
the loop `for j in (height+2..=HASH_SIZE*8).rev()` wraps with
`empty_tree[j]` ordered by `bit_index (j-1)`, i.e. runs the iterations at
indices `j - 1 = 8*N - 1` down to `height + 1`: `8*N - height - 1` of them. -/
def CompactLeaf.extract (N : Nat) (c : CompactLeaf) (height : Nat) : Node :=
  CompactLeaf.walkUpAux N c.key c.leaf (8 * N - height - 1)

/-- Association list insert with replace-on-existing-key, the behaviour of
`HashMap::insert` used by the `MemoryDb` store. -/
def alInsert {α : Type} (l : List (MHash × α)) (k : MHash) (v : α) : List (MHash × α) :=
  (k, v) :: l.filter (fun p => ! decide (p.1 = k))

/-- Association list lookup (`HashMap::get`). -/
def alLookup {α : Type} (l : List (MHash × α)) (k : MHash) : Option α :=
  match l.find? (fun p => decide (p.1 = k)) with
  | some p => some p.2
  | none => none

/-- Association list removal (`HashMap::remove`). -/
def alRemove {α : Type} (l : List (MHash × α)) (k : MHash) : List (MHash × α) :=
  l.filter (fun p => ! decide (p.1 = k))

/-- The `MemoryDb` store of `src/src/db/memory.rs` lines 14-20: three
hash-keyed maps plus the current root. The values stored in `branches` are
always `Node.branch` nodes (the source stores `Branch` structs). -/
structure MemoryDb where
  branches : List (MHash × Node)
  leaves : List (MHash × Leaf)
  compact_leaves : List (MHash × CompactLeaf)
  root_node : Option Node
deriving DecidableEq, Repr

/-- The constructor `MemoryDb::new` (empty maps, no root written yet). -/
def MemoryDb.new : MemoryDb := ⟨[], [], [], none⟩

/-- Store write `insert_branch` (keyed by the branch's own hash). -/
def MemoryDb.insert_branch (db : MemoryDb) (b : Node) : MemoryDb :=
  { db with branches := alInsert db.branches b.hash b }

/-- Store write `insert_leaf` (keyed by the leaf's own hash). -/
def MemoryDb.insert_leaf (db : MemoryDb) (l : Leaf) : MemoryDb :=
  { db with leaves := alInsert db.leaves l.hash l }

/-- Store write `insert_compact_leaf` (keyed by the compact leaf's hash). -/
def MemoryDb.insert_compact_leaf (db : MemoryDb) (c : CompactLeaf) : MemoryDb :=
  { db with compact_leaves := alInsert db.compact_leaves c.node_hash c }

/-- Store write `delete_branch`. -/
def MemoryDb.delete_branch (db : MemoryDb) (k : MHash) : MemoryDb :=
  { db with branches := alRemove db.branches k }

/-- Store write `delete_leaf`. -/
def MemoryDb.delete_leaf (db : MemoryDb) (k : MHash) : MemoryDb :=
  { db with leaves := alRemove db.leaves k }

/-- Store write `delete_compact_leaf`. -/
def MemoryDb.delete_compact_leaf (db : MemoryDb) (k : MHash) : MemoryDb :=
  { db with compact_leaves := alRemove db.compact_leaves k }

/-- Store write `update_root`. -/
def MemoryDb.update_root (db : MemoryDb) (r : Node) : MemoryDb :=
  { db with root_node := some r }

/-- The `get_node` closure inside `MemoryDb::get_children`
(`src/src/db/memory.rs` lines 63-75): empty-tree hash first, then the
branches, leaves and compact-leaves maps, falling back to the canonical empty
node of that height when nothing is found. `none` is the panic on an
out-of-range `empty_tree` index. -/
def MemoryDb.get_node (N : Nat) (db : MemoryDb) (height : Nat) (key : MHash) : Option Node :=
  match emptyTreeGet N height with
  | none => none
  | some e =>
    if key = e.hash then some e
    else
      match alLookup db.branches key with
      | some b => some b
      | none =>
        match alLookup db.leaves key with
        | some l => some (.leaf l)
        | none =>
          match alLookup db.compact_leaves key with
          | some c => some (.compact c)
          | none => some e

/-- The store read `MemoryDb::get_children` (`src/src/db/memory.rs` lines
58-90): resolve the parent hash, fail `NodeNotFound` when a non-empty hash
resolved to the empty fallback, then resolve both children one level below
(where indexing `empty_tree[height+1]` can panic, modelled by `none`);
a non-branch parent is `ExpectedBranch`. -/
def MemoryDb.get_children (N : Nat) (db : MemoryDb) (height : Nat) (key : MHash) :
    Option (Except TreeError (Node × Node)) :=
  match emptyTreeGet N height with
  | none => none
  | some e =>
    match MemoryDb.get_node N db height key with
    | none => none
    | some node =>
      if key ≠ e.hash ∧ node.hash = e.hash then some (.error .NodeNotFound)
      else
        match node with
        | .branch left right _ _ =>
          match MemoryDb.get_node N db (height + 1) left.hash,
                MemoryDb.get_node N db (height + 1) right.hash with
          | some cl, some cr => some (.ok (cl, cr))
          | _, _ => none
        | _ => some (.error .ExpectedBranch)

/-- Depth of the tree: `MSSMT::max_levels` is `HASH_SIZE * 8`. -/
def MSSMT.max_levels (N : Nat) : Nat := 8 * N

/-- The accessor `MSSMT::root` (`src/src/tree/regular.rs` lines 48-58) and,
identically, `CompactMSSMT::root` (`src/src/tree/compact.rs` lines 59-68): the
stored root node, or the canonical empty root `empty_tree[0]`, which must be a
branch (the `unreachable!` panic when it is not, i.e. when `N = 0`, is
modelled by `none`). -/
def MSSMT.root (N : Nat) (db : MemoryDb) : Option Node :=
  match db.root_node with
  | some b => some b
  | none =>
    match emptyTreeGet N 0 with
    | some (.branch l r s h) => some (.branch l r s h)
    | _ => none

/-- The level loop of `MSSMT::walk_down` (`src/src/tree/regular.rs` lines
62-77) over the remaining list of levels, also recording per level the data
the `for_each` closures of the callers consume: the hash of the `current`
node (pushed as `prev_parents` by `insert`) and the `sibling` node (pushed by
`insert` and `merkle_proof`), both in walk order (level 0 first). -/
def MSSMT.walkLevels (N : Nat) (db : MemoryDb) (key : List Nat) :
    List Nat → Node → Option (Except TreeError (Node × List MHash × List Node))
  | [], current => some (.ok (current, [], []))
  | i :: rest, current =>
    match MemoryDb.get_children N db i current.hash with
    | none => none
    | some (.error e) => some (.error e)
    | some (.ok (left, right)) =>
      let step := if bit_index i key = 0 then (left, right) else (right, left)
      match MSSMT.walkLevels N db key rest step.1 with
      | none => none
      | some (.error e) => some (.error e)
      | some (.ok (last, parents, siblings)) =>
        some (.ok (last, current.hash :: parents, step.2 :: siblings))

/-- The method `MSSMT::walk_down` (`src/src/tree/regular.rs` lines 62-82):
start from the root, walk the levels `0 .. 8*N - 1`, and require a `Leaf` at
the end (`ExpectedLeaf` otherwise). Returns the leaf together with the
recorded parent hashes and siblings. -/
def MSSMT.walk_down (N : Nat) (db : MemoryDb) (key : List Nat) :
    Option (Except TreeError (Leaf × List MHash × List Node)) :=
  match MSSMT.root N db with
  | none => none
  | some r =>
    match MSSMT.walkLevels N db key (List.range (8 * N)) r with
    | none => none
    | some (.error e) => some (.error e)
    | some (.ok (last, parents, siblings)) =>
      match last with
      | .leaf l => some (.ok (l, parents, siblings))
      | _ => some (.error .ExpectedLeaf)

/-- The loop of `walk_up` (`src/src/tree/mod.rs` lines 34-51). The call with
fuel `k + 1` performs the iteration `i = k`, pairing `current` with
`siblings[8*N - 1 - i]` ordered by `bit_index i key` (indexing past the end of
`siblings` is a Rust panic, modelled by `none`). Also records, in call order
(`i = 8*N - 1` first), the `(height, parent)` pairs handed to the `for_each`
closure. -/
def MSSMT.walkUpAux (N : Nat) (key : List Nat) (siblings : List Node) :
    Nat → Node → Option (Node × List (Nat × Node))
  | 0, current => some (current, [])
  | k + 1, current =>
    match siblings.get? (8 * N - (k + 1)) with
    | none => none
    | some sibling =>
      let parent := if bit_index k key = 0 then Branch.new current sibling
                    else Branch.new sibling current
      match MSSMT.walkUpAux N key siblings k parent with
      | none => none
      | some (final, records) => some (final, (k, parent) :: records)

/-- The function `walk_up` (`src/src/tree/mod.rs` lines 28-57): fold the
sibling list (leaf-adjacent end first, as the callers pass it reversed) onto
the starting leaf; the result must be a branch, else `ExpectedBranch`. -/
def MSSMT.walk_up (N : Nat) (key : List Nat) (start : Leaf) (siblings : List Node) :
    Option (Except TreeError (Node × List (Nat × Node))) :=
  match MSSMT.walkUpAux N key siblings (8 * N) (.leaf start) with
  | none => none
  | some (final, records) =>
    match final with
    | .branch l r s h => some (.ok (.branch l r s h, records))
    | _ => some (.error .ExpectedBranch)

/-- The `for_each` closure of `MSSMT::insert` (`src/src/tree/regular.rs`
lines 109-119) applied to the recorded walk-up parents: at height `h` the
previous parent `prev_parents[8*N - h - 1]` is scheduled for deletion when its
hash is not the empty hash of that level, and the new parent is scheduled for
insertion when its hash is not the empty hash. Both lists keep the closure's
push order. -/
def MSSMT.collectMutations (N : Nat) (prev_parents : List MHash) :
    List (Nat × Node) → Option (List MHash × List Node)
  | [] => some ([], [])
  | (h, parent) :: rest =>
    match emptyTreeGet N h with
    | none => none
    | some e =>
      match prev_parents.get? (8 * N - h - 1) with
      | none => none
      | some pp =>
        match MSSMT.collectMutations N prev_parents rest with
        | none => none
        | some (dels, ins) =>
          some (if pp ≠ e.hash then pp :: dels else dels,
                if parent.hash ≠ e.hash then
                  (match parent with
                   | .branch l r s h2 => Node.branch l r s h2 :: ins
                   | _ => ins)
                else ins)

/-- The method `MSSMT::insert` (`src/src/tree/regular.rs` lines 85-131):
check `leaf.sum + root.sum` against u64 overflow (`SumOverflow`, before any
mutation), walk down recording previous parents and siblings, walk up from
the new leaf building the new parents, then flush: scheduled branch inserts
first, then scheduled branch deletes, then `insert_leaf`, then `update_root`.
The mutated store is returned alongside the result; every error is returned
before the first mutation, with the store unchanged. -/
def MSSMT.insert (N : Nat) (db : MemoryDb) (key : List Nat) (leafN : Leaf) :
    Option (Except TreeError Unit × MemoryDb) :=
  match MSSMT.root N db with
  | none => none
  | some r =>
    if U64MAX < leafN.sum + r.sum then some (.error .SumOverflow, db)
    else
      match MSSMT.walk_down N db key with
      | none => none
      | some (.error e) => some (.error e, db)
      | some (.ok (_, parents, siblings)) =>
        match MSSMT.walk_up N key leafN siblings.reverse with
        | none => none
        | some (.error e) => some (.error e, db)
        | some (.ok (root', records)) =>
          match MSSMT.collectMutations N parents.reverse records with
          | none => none
          | some (dels, ins) =>
            let db1 := ins.foldl (fun d b => MemoryDb.insert_branch d b) db
            let db2 := dels.foldl (fun d k => MemoryDb.delete_branch d k) db1
            some (.ok (), MemoryDb.update_root (MemoryDb.insert_leaf db2 leafN) root')

/-- The method `MSSMT::get` (`src/src/tree/regular.rs` lines 148-150): the
leaf returned by `walk_down`. -/
def MSSMT.get (N : Nat) (db : MemoryDb) (key : List Nat) : Option (Except TreeError Leaf) :=
  match MSSMT.walk_down N db key with
  | none => none
  | some (.error e) => some (.error e)
  | some (.ok (l, _, _)) => some (.ok l)

/-- The method `MSSMT::delete` (`src/src/tree/regular.rs` lines 145-147):
insertion of an empty leaf. -/
def MSSMT.delete (N : Nat) (db : MemoryDb) (key : List Nat) :
    Option (Except TreeError Unit × MemoryDb) :=
  MSSMT.insert N db key .Empty

/-- The method `MSSMT::merkle_proof` (`src/src/tree/regular.rs` lines
133-143): push the sibling at every level of the walk down, then reverse. -/
def MSSMT.merkle_proof (N : Nat) (db : MemoryDb) (key : List Nat) :
    Option (Except TreeError (List Node)) :=
  match MSSMT.walk_down N db key with
  | none => none
  | some (.error e) => some (.error e)
  | some (.ok (_, _, siblings)) => some (.ok siblings.reverse)

/-- The function `verify_merkle_proof` (`src/src/tree/mod.rs` lines 71-90):
recompute the root by walking up from the claimed leaf along the proof and
compare its hash with the expected root's hash; a mismatch is
`InvalidMerkleProof`. -/
def verify_merkle_proof (N : Nat) (key : List Nat) (leafN : Leaf) (proof : List Node)
    (root : Node) : Option (Except TreeError Unit) :=
  match MSSMT.walk_up N key leafN proof with
  | none => none
  | some (.error e) => some (.error e)
  | some (.ok (got, _)) =>
    if got.hash = root.hash then some (.ok ()) else some (.error .InvalidMerkleProof)

/-- Apply a list of `(key, leaf)` insertions through `MSSMT::insert` from the
given store, requiring every operation to succeed. A regular-engine `delete`
is the insertion of `Leaf.Empty` (`MSSMT::delete`), so operation sequences
mixing inserts and deletes are lists of this shape. -/
def MSSMT.runOps (N : Nat) (db : MemoryDb) : List (List Nat × Leaf) → Option MemoryDb
  | [] => some db
  | (k, l) :: rest =>
    match MSSMT.insert N db k l with
    | some (.ok _, db') => MSSMT.runOps N db' rest
    | _ => none

/-- The common-prefix scan at the start of `CompactMSSMT::merge`
(`src/src/tree/compact.rs` lines 180-184): starting from `i`, with the given
remaining fuel standing for `max_levels - i`, advance while the bits of the
two keys agree. -/
def CompactMSSMT.firstDiff (key1 key2 : List Nat) : Nat → Nat → Nat
  | 0, i => i
  | fuel + 1, i =>
    if bit_index i key1 = bit_index i key2 then CompactMSSMT.firstDiff key1 key2 fuel (i + 1)
    else i

/-- The wrap-up loop of `CompactMSSMT::merge` (`src/src/tree/compact.rs`
lines 201-212): `for i in (height..i).rev()`, wrap the parent with a branch
whose other child is `empty_tree[i+1]`, ordered by `bit_index i key1`, and
insert each branch. The first argument is the current loop index, the second
the number of remaining iterations. -/
def CompactMSSMT.mergeWrap (N : Nat) (key1 : List Nat) :
    Nat → Nat → Node → MemoryDb → Option (Node × MemoryDb)
  | _, 0, parent, db => some (parent, db)
  | k, c + 1, parent, db =>
    match emptyTreeGet N (k + 1) with
    | none => none
    | some e =>
      let lr := if bit_index k key1 = 0 then (parent, e) else (e, parent)
      let parent2 := Branch.new lr.1 lr.2
      CompactMSSMT.mergeWrap N key1 (k - 1) c parent2 (db.insert_branch parent2)

/-- The method `CompactMSSMT::merge` (`src/src/tree/compact.rs` lines
171-215): find the first level `i` (scanning from level 0) where the two keys
differ, build two compact leaves at level `i + 1`, insert both plain leaves
and both compact leaves, make them children of a new branch ordered by
`bit_index i key1`, insert it, then wrap with single-inhabited branches from
level `i - 1` down to `height`. -/
def CompactMSSMT.merge (N : Nat) (db : MemoryDb) (height : Nat) (key1 : List Nat)
    (leaf1 : Leaf) (key2 : List Nat) (leaf2 : Leaf) : Option (Node × MemoryDb) :=
  let i := CompactMSSMT.firstDiff key1 key2 (8 * N) 0
  let node1 := CompactLeaf.new N (i + 1) key1 leaf1
  let node2 := CompactLeaf.new N (i + 1) key2 leaf2
  let db1 := ((db.insert_leaf leaf1).insert_leaf leaf2).insert_compact_leaf node1
  let db2 := db1.insert_compact_leaf node2
  let lr := if bit_index i key1 = 0 then (Node.compact node1, Node.compact node2)
            else (Node.compact node2, Node.compact node1)
  let parent := Branch.new lr.1 lr.2
  CompactMSSMT.mergeWrap N key1 (i - 1) (i - height) parent (db2.insert_branch parent)

/-- The method `CompactMSSMT::insert_leaf` (`src/src/tree/compact.rs` lines
223-316), with explicit fuel for the recursion along the key path (the caller
passes more fuel than the `empty_tree` bounds checks inside `get_children`
allow to consume, so fuel exhaustion is unreachable). Cases on the child
`next` along the key bit: an empty subtree becomes a fresh compact leaf; a
non-empty branch (or computed node) recurses one level down; a compact leaf
with the same key is replaced, with a different key merged; a plain leaf is
`ExpectedBranch`. Afterwards the previous root of the subtree is deleted when
non-empty and the rebuilt branch inserted when non-empty. The store is
threaded through and returned also alongside errors. -/
def CompactMSSMT.insert_leaf (N : Nat) :
    Nat → MemoryDb → List Nat → Nat → MHash → Leaf →
      Option (Except TreeError Node × MemoryDb)
  | 0, _, _, _, _, _ => none
  | fuel + 1, db, key, height, root_hash, leafN =>
    match MemoryDb.get_children N db height root_hash with
    | none => none
    | some (.error e) => some (.error e, db)
    | some (.ok (left, right)) =>
      let is_left := bit_index height key = 0
      let step := if is_left then (left, right) else (right, left)
      let next_height := height + 1
      let arm : Option (Except TreeError Node × MemoryDb) :=
        match step.1 with
        | .branch _ _ _ bh =>
          match emptyTreeGet N next_height with
          | none => none
          | some e =>
            if bh = e.hash then
              let new_leaf := CompactLeaf.new N next_height key leafN
              some (.ok (.compact new_leaf),
                (db.insert_leaf leafN).insert_compact_leaf new_leaf)
            else
              match CompactMSSMT.insert_leaf N fuel db key next_height bh leafN with
              | none => none
              | some (.error e2, db') => some (.error e2, db')
              | some (.ok n, db') => some (.ok n, db')
        | .compact c =>
          let db1 := (db.delete_leaf c.leaf.hash).delete_compact_leaf c.node_hash
          if key = c.key then
            let new_leaf := CompactLeaf.new N next_height key leafN
            some (.ok (.compact new_leaf),
              (db1.insert_leaf leafN).insert_compact_leaf new_leaf)
          else
            match CompactMSSMT.merge N db1 next_height key leafN c.key c.leaf with
            | none => none
            | some (n, db2) => some (.ok n, db2)
        | .computed ch _ =>
          match emptyTreeGet N next_height with
          | none => none
          | some e =>
            if ch = e.hash then
              let new_leaf := CompactLeaf.new N next_height key leafN
              some (.ok (.compact new_leaf),
                (db.insert_leaf leafN).insert_compact_leaf new_leaf)
            else
              match CompactMSSMT.insert_leaf N fuel db key next_height ch leafN with
              | none => none
              | some (.error e2, db') => some (.error e2, db')
              | some (.ok n, db') => some (.ok n, db')
        | .leaf _ => some (.error .ExpectedBranch, db)
      match arm with
      | none => none
      | some (.error e2, db') => some (.error e2, db')
      | some (.ok new_node, db') =>
        match emptyTreeGet N height with
        | none => none
        | some eh =>
          let db2 := if root_hash ≠ eh.hash then db'.delete_branch root_hash else db'
          let branch := if is_left then Branch.new new_node step.2
                        else Branch.new step.2 new_node
          let db3 := if branch.hash ≠ eh.hash then db2.insert_branch branch else db2
          some (.ok branch, db3)

/-- The method `CompactMSSMT::insert` (`src/src/tree/compact.rs` lines
328-353): resolve the root exactly as `root()` does, check
`root.sum + leaf.sum` against u64 overflow (`SumOverflow`, before any
mutation), then run `insert_leaf` from level 0 and commit the new root. -/
def CompactMSSMT.insert (N : Nat) (db : MemoryDb) (key : List Nat) (leafN : Leaf) :
    Option (Except TreeError Unit × MemoryDb) :=
  match MSSMT.root N db with
  | none => none
  | some root =>
    if U64MAX < root.sum + leafN.sum then some (.error .SumOverflow, db)
    else
      match CompactMSSMT.insert_leaf N (8 * N + 2) db key 0 root.hash leafN with
      | none => none
      | some (.error e, db') => some (.error e, db')
      | some (.ok new_root, db') => some (.ok (), db'.update_root new_root)

/-- Apply a list of `(key, leaf)` insertions through `CompactMSSMT::insert`
from the given store, requiring every operation to succeed. -/
def CompactMSSMT.runOps (N : Nat) (db : MemoryDb) : List (List Nat × Leaf) → Option MemoryDb
  | [] => some db
  | (k, l) :: rest =>
    match CompactMSSMT.insert N db k l with
    | some (.ok _, db') => CompactMSSMT.runOps N db' rest
    | _ => none

/-- The loop of `Proof::compress` (`src/src/proof.rs` lines 53-66) over the
remaining nodes, `i` being the position of the head in the original proof: a
node whose hash equals `empty_tree[8*N - i].hash` becomes a `true` bit and is
elided, any other node becomes a `false` bit and is kept. The `8*N - i` usize
subtraction underflows (panics) when `i > 8*N`, modelled by `none`. -/
def Proof.compressAux (N : Nat) : List Node → Nat → Option (List Node × List Bool)
  | [], _ => some ([], [])
  | n :: rest, i =>
    if 8 * N < i then none
    else
      match emptyTreeGet N (8 * N - i) with
      | none => none
      | some e =>
        match Proof.compressAux N rest (i + 1) with
        | none => none
        | some (ns, bs) =>
          if n.hash = e.hash then some (ns, true :: bs)
          else some (n :: ns, false :: bs)

/-- The method `Proof::compress` (`src/src/proof.rs` lines 53-66). -/
def Proof.compress (N : Nat) (nodes : List Node) : Option (List Node × List Bool) :=
  Proof.compressAux N nodes 0

/-- The rehydration loop of `CompressedProof::decompress` (`src/src/proof.rs`
lines 131-138): a `true` bit at position `i` yields `empty_tree[8*N - i]`, a
`false` bit consumes the next stored node (running out of stored nodes, an
out-of-bounds index in the source, is `none`; the caller's count check makes
it unreachable). -/
def CompressedProof.rebuild (N : Nat) : List Bool → List Node → Nat → Option (List Node)
  | [], _, _ => some []
  | b :: bs, ns, i =>
    if 8 * N < i then none
    else
      match emptyTreeGet N (8 * N - i) with
      | none => none
      | some e =>
        if b then (CompressedProof.rebuild N bs ns (i + 1)).map (fun t => e :: t)
        else
          match ns with
          | [] => none
          | n :: rest => (CompressedProof.rebuild N bs rest (i + 1)).map (fun t => n :: t)

/-- The method `CompressedProof::decompress` (`src/src/proof.rs` lines
121-140): fail `InvalidMerkleProof` when the stored node count differs from
the number of zero bits, otherwise rehydrate the full sequence. -/
def CompressedProof.decompress (N : Nat) (nodes : List Node) (bits : List Bool) :
    Option (Except TreeError (List Node)) :=
  if nodes.length ≠ (bits.filter (fun b => !b)).length then some (.error .InvalidMerkleProof)
  else
    match CompressedProof.rebuild N bits nodes 0 with
    | none => none
    | some l => some (.ok l)

/-- Big-endian bytes to number (`u16::from_be_bytes` on 2 bytes,
`u64::from_be_bytes` on 8 bytes). -/
def beBytesToNat (bs : List Nat) : Nat := bs.foldl (fun acc b => acc * 256 + b) 0

/-- Bits of one byte, least significant first (`bitvec`'s `Lsb0` order used by
`BitVec::<u8, Lsb0>::from_slice`). -/
def byteToBitsLsb (b : Nat) : List Bool :=
  (List.range 8).map (fun i => decide ((b >>> i) % 2 = 1))

/-- The node-reading loop of `CompressedProof::decode` (`src/src/proof.rs`
lines 159-166) on the remaining bytes: each of the declared `nb_nodes`
entries consumes `HASH_SIZE` hash bytes and 8 big-endian sum bytes; slicing
past the end of the data is a Rust panic, modelled by `none`. Decoded hashes
are raw bytes (the source builds `ComputedNode`s from them), so this wire
model keeps them as byte lists. -/
def CompressedProof.decodeNodes (HS : Nat) :
    Nat → List Nat → Option (List (List Nat × Nat) × List Nat)
  | 0, data => some ([], data)
  | c + 1, data =>
    if data.length < HS + 8 then none
    else
      match CompressedProof.decodeNodes HS c ((data.drop HS).drop 8) with
      | none => none
      | some (ns, rem) =>
        some ((data.take HS, beBytesToNat ((data.drop HS).take 8)) :: ns, rem)

/-- The function `CompressedProof::decode` (`src/src/proof.rs` lines 155-169):
read a big-endian `u16` node count from `data[0..2]` (panicking when fewer
than 2 bytes are available), then that many `(hash, sum)` entries, then the
remaining bytes as an Lsb0 bit vector. `none` is a panic. -/
def CompressedProof.decode (HS : Nat) (data : List Nat) :
    Option (List (List Nat × Nat) × List Bool) :=
  if data.length < 2 then none
  else
    match CompressedProof.decodeNodes HS (beBytesToNat (data.take 2)) (data.drop 2) with
    | none => none
    | some (ns, rem) => some (ns, rem.flatMap byteToBitsLsb)

/-- Modelled from the spec: the CompactLeaf expansion loop of spec section 4.1
("for `j = 8N-1 down to h+1`, if `bit_index(j-1, key) == 0` then
`current = Branch(current, empty_tree[j])` else
`current = Branch(empty_tree[j], current)`", starting from `current = Leaf`),
also quoted by the claim. The call with count `k+1` performs the iteration at
`j = 8*N - 1 - k`; its sibling `empty_tree[j]` is `EmptyTree.node (8*N - j)`. -/
def specExpandAux (N : Nat) (key : List Nat) (leafN : Leaf) : Nat → Node
  | 0 => .leaf leafN
  | k + 1 =>
    let current := specExpandAux N key leafN k
    if bit_index (8 * N - 1 - k - 1) key = 0 then
      Branch.new current (EmptyTree.node (8 * N - (8 * N - 1 - k)))
    else Branch.new (EmptyTree.node (8 * N - (8 * N - 1 - k))) current

/-- Modelled from the spec: the spec's expansion of a CompactLeaf at level
`h`, running the loop `for j = 8N-1 down to h+1`, which is `8*N - 1 - h`
iterations. -/
def specExpand (N : Nat) (key : List Nat) (leafN : Leaf) (h : Nat) : Node :=
  specExpandAux N key leafN (8 * N - 1 - h)

/-- Amended form of the spec's expansion loop with the upper bound raised by
one: `for j = 8N down to h+1`, the call with count `k+1` performing the
iteration at `j = 8*N - k`. -/
def specExpandAmendedAux (N : Nat) (key : List Nat) (leafN : Leaf) : Nat → Node
  | 0 => .leaf leafN
  | k + 1 =>
    let current := specExpandAmendedAux N key leafN k
    if bit_index (8 * N - k - 1) key = 0 then
      Branch.new current (EmptyTree.node (8 * N - (8 * N - k)))
    else Branch.new (EmptyTree.node (8 * N - (8 * N - k))) current

/-- Amended spec expansion of a CompactLeaf at level `h`: the loop
`for j = 8N down to h+1` is `8*N - h` iterations. -/
def specExpandAmended (N : Nat) (key : List Nat) (leafN : Leaf) (h : Nat) : Node :=
  specExpandAmendedAux N key leafN (8 * N - h)

/-- The inner loop of `CompactMSSMT::walk_down` (`src/src/tree/compact.rs`
lines 109-134) after a compact leaf has been extracted: walk the already
materialised branches without further store reads. Arguments are the
remaining levels `j` (consecutive, ending at `8*N - 1`), the node `next`
entered at the head level and its `sibling`; each level records the sibling
(the `for_each` push of `merkle_proof`), and below the last level the current
node must be a branch (`ExpectedBranch`) whose children are reordered by
`bit_index (j+1)`. -/
def CompactMSSMT.walkInner (N : Nat) (path : List Nat) :
    List Nat → Node → Node → Option (Except TreeError (Node × List Node))
  | [], current, _ => some (.ok (current, []))
  | [_], next, sibling => some (.ok (next, [sibling]))
  | j :: jx :: rest, next, sibling =>
    match next with
    | .branch bl br _ _ =>
      let step := if bit_index (j + 1) path = 0 then (bl, br) else (br, bl)
      match CompactMSSMT.walkInner N path (jx :: rest) step.1 step.2 with
      | none => none
      | some (.error e) => some (.error e)
      | some (.ok (lastN, sibs)) => some (.ok (lastN, sibling :: sibs))
    | _ => some (.error .ExpectedBranch)

/-- The outer loop of `CompactMSSMT::walk_down` (`src/src/tree/compact.rs`
lines 91-150): read the children from the store, reorder by the path bit, and
on meeting a compact leaf extract it (extracting a compact sibling as well)
and continue through `walkInner` without further store reads. Records the
siblings in walk order. -/
def CompactMSSMT.walkOuter (N : Nat) (db : MemoryDb) (path : List Nat) :
    List Nat → Node → Option (Except TreeError (Node × List Node))
  | [], current => some (.ok (current, []))
  | i :: rest, current =>
    match MemoryDb.get_children N db i current.hash with
    | none => none
    | some (.error e) => some (.error e)
    | some (.ok (left, right)) =>
      let step := if bit_index i path = 0 then (left, right) else (right, left)
      match step.1 with
      | .compact c =>
        let nextE := CompactLeaf.extract N c i
        let sibE := match step.2 with
                    | .compact cs => CompactLeaf.extract N cs i
                    | s => s
        CompactMSSMT.walkInner N path (i :: rest) nextE sibE
      | _ =>
        match CompactMSSMT.walkOuter N db path rest step.1 with
        | none => none
        | some (.error e) => some (.error e)
        | some (.ok (lastN, sibs)) => some (.ok (lastN, step.2 :: sibs))

/-- The method `CompactMSSMT::walk_down` (`src/src/tree/compact.rs` lines
84-156): unlike the regular engine's walk-down, it starts from
`get_root_node().ok_or(NodeNotFound)` — a freshly constructed store with no
root written makes it fail `NodeNotFound` — and the node reached at the end
must be a leaf (`ExpectedLeaf`). -/
def CompactMSSMT.walk_down (N : Nat) (db : MemoryDb) (path : List Nat) :
    Option (Except TreeError (Leaf × List Node)) :=
  match db.root_node with
  | none => some (.error .NodeNotFound)
  | some r =>
    match CompactMSSMT.walkOuter N db path (List.range (8 * N)) r with
    | none => none
    | some (.error e) => some (.error e)
    | some (.ok (lastN, sibs)) =>
      match lastN with
      | .leaf l => some (.ok (l, sibs))
      | _ => some (.error .ExpectedLeaf)

/-- The method `CompactMSSMT::merkle_proof` (`src/src/tree/compact.rs` lines
381-393): the siblings pushed during walk-down, reversed. -/
def CompactMSSMT.merkle_proof (N : Nat) (db : MemoryDb) (key : List Nat) :
    Option (Except TreeError (List Node)) :=
  match CompactMSSMT.walk_down N db key with
  | none => none
  | some (.error e) => some (.error e)
  | some (.ok (_, sibs)) => some (.ok sibs.reverse)

/-- Root of the regular tree after running the given operations on a fresh
store with `HASH_SIZE = 1` (depth 8). -/
def rootAfter (ops : List (List Nat × Leaf)) : Option Node :=
  (MSSMT.runOps 1 MemoryDb.new ops).bind (fun db => MSSMT.root 1 db)

/-- Root of the compact tree after running the given operations on a fresh
store with `HASH_SIZE = 1` (depth 8). -/
def compactRootAfter (ops : List (List Nat × Leaf)) : Option Node :=
  (CompactMSSMT.runOps 1 MemoryDb.new ops).bind (fun db => MSSMT.root 1 db)

/-- Final key-to-leaf mapping determined by an operation list: the last
operation on a key wins, a key never touched (or last set to an empty leaf)
maps to the empty leaf. This is the "final set {key → (value, sum)}" of the
spec's history-independence and sum-conservation statements. -/
def opsFinalMap (ops : List (List Nat × Leaf)) (key : List Nat) : Leaf :=
  match ops.reverse.find? (fun op => decide (op.1 = key)) with
  | some op => op.2
  | none => .Empty

/-- Sum of the sums of all inhabited leaves of the final mapping of an
operation list, for `HASH_SIZE = 1` (the 256 single-byte keys); empty leaves
contribute 0. -/
def totalLeafSum (ops : List (List Nat × Leaf)) : Nat :=
  ((List.range 256).map (fun b => (opsFinalMap ops [b]).sum)).sum

/-- Operation sequence refuting regular/compact root equivalence: two keys
differing only in bit 0 get the same leaf value, making their two compact
leaves collide in the hash-keyed `compact_leaves` map (the second insert
overwrites the first one's key field); the final insert then replaces key
`[0]` but the compact engine finds a compact leaf recorded for key `[1]` and
wrongly merges instead of replacing. -/
def opsEquivBreak : List (List Nat × Leaf) :=
  [([0], .NonEmpty [1] 1), ([1], .NonEmpty [1] 1), ([0], .NonEmpty [2] 1)]

/-- Operation sequence corrupting the regular store through hash aliasing:
keys `[0]` and `[1]` (and likewise `[2]` and `[3]`) differ only in bit 0, so
the branch nodes of the two level-1 subtrees coincide hash-by-hash and are
stored once; deleting key `[1]` then removes branch entries still needed by
the subtree of keys `[0]` and `[2]`. -/
def opsShared : List (List Nat × Leaf) :=
  [([0], .NonEmpty [1] 1), ([2], .NonEmpty [2] 2),
   ([1], .NonEmpty [1] 1), ([3], .NonEmpty [2] 2), ([1], .Empty)]

/-- The corrupting sequence continued with the deletion of key `[3]`: its
walk-down now sees an empty fallback in place of the still-inhabited left
subtree, and the rebuilt root forgets keys `[0]` and `[2]` entirely. -/
def opsShared2 : List (List Nat × Leaf) := opsShared ++ [([3], .Empty)]

/-- Direct sequence with the same final mapping as `opsShared2`. -/
def opsDirect : List (List Nat × Leaf) :=
  [([0], .NonEmpty [1] 1), ([2], .NonEmpty [2] 2)]

/-- Inserting the identical leaf twice at the same key: the new path branches
equal the old ones, and since `MSSMT::insert` flushes insertions before
deletions, the deletions remove the whole freshly written path from the
store. -/
def opsDup : List (List Nat × Leaf) :=
  [([0], .NonEmpty [1] 1), ([0], .NonEmpty [1] 1)]

/-- Store after one insertion at key `[0]` (depth 8), used as a well-formed
witness state. -/
def dbOneInsert : MemoryDb :=
  (MSSMT.runOps 1 MemoryDb.new [([0], Leaf.NonEmpty [1] 1)]).getD MemoryDb.new

/-- The proof produced for absent key `[1]` on `dbOneInsert`. -/
def proofOneInsert : List Node :=
  match MSSMT.merkle_proof 1 dbOneInsert [1] with
  | some (.ok p) => p
  | _ => []

/-- Store after one insertion of a leaf of sum `u64::MAX` at key `[0]`. -/
def dbMaxSum : MemoryDb :=
  (MSSMT.runOps 1 MemoryDb.new [([0], Leaf.NonEmpty [1] U64MAX)]).getD MemoryDb.new

/-- Root branch of `dbMaxSum`. -/
def rootMaxSum : Node := (MSSMT.root 1 dbMaxSum).getD (Node.leaf .Empty)

theorem specExpandAmendedAux_eq_walkUpAux (N : Nat) (key : List Nat) (leafN : Leaf) :
    ∀ k, k ≤ 8 * N →
      specExpandAmendedAux N key leafN k = CompactLeaf.walkUpAux N key leafN k := by
  intro k
  induction k with
  | zero => intro _; rfl
  | succ k ih =>
    intro hk
    have hk' : k ≤ 8 * N := Nat.le_of_succ_le hk
    have h1 : 8 * N - (8 * N - k) = k := Nat.sub_sub_self hk'
    have h2 : 8 * N - k - 1 = 8 * N - (k + 1) := by omega
    simp only [specExpandAmendedAux, CompactLeaf.walkUpAux, ih hk', h1, h2]

/-- Claim C6 (amended form): expanding a CompactLeaf stored at level `h` by
the loop `for j = 8N down to h+1` (one more iteration than the spec's
`8N-1 down to h+1`) yields a node whose hash equals the hash stored by
`CompactLeaf::new`. -/
theorem claim_C6_expansion_amended (N h : Nat) (key : List Nat) (leafN : Leaf) :
    (specExpandAmended N key leafN h).hash = (CompactLeaf.new N h key leafN).node_hash := by
  have he := specExpandAmendedAux_eq_walkUpAux N key leafN (8 * N - h) (Nat.sub_le _ _)
  simp only [specExpandAmended, CompactLeaf.new, he]

/-- Claim C6 as stated is false: for `N = 1`, a CompactLeaf at level 1 for
key `[0]` and leaf `([1], 1)`, the spec's loop `for j = 8N-1 down to h+1`
stops one level short, and the resulting hash differs from the hash stored by
`CompactLeaf::new`. -/
theorem claim_C6_counterexample :
    (specExpand 1 [0] (.NonEmpty [1] 1) 1).hash ≠
      (CompactLeaf.new 1 1 [0] (.NonEmpty [1] 1)).node_hash := by decide

theorem codec_roundtrip_aux (N : Nat) :
    ∀ (l : List Node) (i : Nat), i + l.length ≤ 8 * N →
    ∃ ns bs q, Proof.compressAux N l i = some (ns, bs) ∧
      ns.length = (bs.filter (fun b => !b)).length ∧
      CompressedProof.rebuild N bs ns i = some q ∧
      q.map Node.hash = l.map Node.hash := by
  intro l
  induction l with
  | nil =>
    intro i _
    exact ⟨[], [], [], rfl, rfl, rfl, rfl⟩
  | cons n rest ih =>
    intro i hlen
    have hlen' : (i + 1) + rest.length ≤ 8 * N := by
      simp only [List.length_cons] at hlen; omega
    have hi : ¬ 8 * N < i := by omega
    have hi2 : 8 * N - i ≤ 8 * N := Nat.sub_le _ _
    have hsub : 8 * N - (8 * N - i) = i := by omega
    have hget : emptyTreeGet N (8 * N - i) = some (EmptyTree.node i) := by
      unfold emptyTreeGet
      rw [if_pos hi2, hsub]
    obtain ⟨ns, bs, q, hc, hcount, hr, hq⟩ := ih (i + 1) hlen'
    by_cases hn : n.hash = (EmptyTree.node i).hash
    · refine ⟨ns, true :: bs, EmptyTree.node i :: q, ?_, ?_, ?_, ?_⟩
      · simp [Proof.compressAux, if_neg hi, hget, hc, hn]
      · simpa using hcount
      · simp [CompressedProof.rebuild, if_neg hi, hget, hr]
      · simp [hq, hn.symm]
    · refine ⟨n :: ns, false :: bs, n :: q, ?_, ?_, ?_, ?_⟩
      · simp [Proof.compressAux, if_neg hi, hget, hc, hn]
      · simpa using hcount
      · simp [CompressedProof.rebuild, if_neg hi, hget, hr]
      · simp [hq]

/-- Claim C8: for every proof of exactly `8*N` nodes,
`decompress (compress p)` succeeds and returns a proof that agrees with `p`
on the hash at every position (equality of the hash lists). -/
theorem claim_C8_compress_roundtrip (N : Nat) (nodes : List Node)
    (h : nodes.length = 8 * N) :
    ∃ ns bs q, Proof.compress N nodes = some (ns, bs) ∧
      CompressedProof.decompress N ns bs = some (.ok q) ∧
      q.map Node.hash = nodes.map Node.hash := by
  obtain ⟨ns, bs, q, hc, hcount, hr, hq⟩ := codec_roundtrip_aux N nodes 0 (by omega)
  refine ⟨ns, bs, q, hc, ?_, hq⟩
  simp only [CompressedProof.decompress]
  rw [if_neg (by simp [hcount]), hr]

/-- Concrete instance of claim C8 at `N = 1` on a proof of eight empty-leaf
nodes. -/
theorem claim_C8_witness :
    (List.replicate 8 (Node.leaf .Empty)).length = 8 * 1 ∧
    ∃ ns bs q, Proof.compress 1 (List.replicate 8 (Node.leaf .Empty)) = some (ns, bs) ∧
      CompressedProof.decompress 1 ns bs = some (.ok q) ∧
      q.map Node.hash = (List.replicate 8 (Node.leaf .Empty)).map Node.hash :=
  ⟨by decide, claim_C8_compress_roundtrip 1 (List.replicate 8 (Node.leaf .Empty)) (by decide)⟩

theorem decodeNodes_none_iff (HS : Nat) :
    ∀ c (data : List Nat),
      (CompressedProof.decodeNodes HS c data = none ↔ data.length < c * (HS + 8)) := by
  intro c
  induction c with
  | zero => intro data; simp [CompressedProof.decodeNodes]
  | succ c ih =>
    intro data
    simp only [CompressedProof.decodeNodes]
    have hmul : (c + 1) * (HS + 8) = c * (HS + 8) + (HS + 8) := by ring
    by_cases h : data.length < HS + 8
    · rw [if_pos h]
      refine iff_of_true rfl ?_
      generalize c * (HS + 8) = M at hmul
      omega
    · rw [if_neg h]
      have hlen : ((data.drop HS).drop 8).length = data.length - HS - 8 := by
        simp only [List.length_drop]
      rcases hrec : CompressedProof.decodeNodes HS c ((data.drop HS).drop 8) with _ | p
      · have h2 := (ih _).mp hrec
        rw [hlen] at h2
        refine iff_of_true rfl ?_
        generalize c * (HS + 8) = M at hmul h2
        omega
      · obtain ⟨ns, rem⟩ := p
        have h2 : ¬ (((data.drop HS).drop 8).length < c * (HS + 8)) := by
          intro hcon
          have hnone := (ih _).mpr hcon
          rw [hrec] at hnone
          cases hnone
        rw [hlen] at h2
        refine iff_of_false (by simp) ?_
        generalize c * (HS + 8) = M at hmul h2
        omega

/-- Claim C10: `CompressedProof::decode` is not total; it panics (modelled by
`none`) exactly on the inputs of fewer than 2 bytes and on those shorter than
`2 + node_count * (HASH_SIZE + 8)` bytes, where `node_count` is the declared
big-endian `u16` at the front. -/
theorem claim_C10_decode_partial (HS : Nat) (data : List Nat) :
    (CompressedProof.decode HS data = none ↔
      (data.length < 2 ∨
        data.length < 2 + beBytesToNat (data.take 2) * (HS + 8))) := by
  simp only [CompressedProof.decode]
  by_cases h : data.length < 2
  · rw [if_pos h]
    exact iff_of_true rfl (Or.inl h)
  · rw [if_neg h]
    have hlen : (data.drop 2).length = data.length - 2 := by simp
    rcases hrec : CompressedProof.decodeNodes HS (beBytesToNat (data.take 2)) (data.drop 2)
      with _ | p
    · have h2 := (decodeNodes_none_iff HS _ _).mp hrec
      rw [hlen] at h2
      refine iff_of_true rfl (Or.inr ?_)
      generalize beBytesToNat (data.take 2) * (HS + 8) = M at h2
      omega
    · obtain ⟨ns, rem⟩ := p
      have h2 : ¬ ((data.drop 2).length < beBytesToNat (data.take 2) * (HS + 8)) := by
        intro hcon
        have hnone := (decodeNodes_none_iff HS _ _).mpr hcon
        rw [hrec] at hnone
        cases hnone
      rw [hlen] at h2
      refine iff_of_false (by simp) ?_
      rintro (hc | hc)
      · exact h hc
      · revert hc
        generalize beBytesToNat (data.take 2) * (HS + 8) = M at h2 ⊢
        omega

theorem walkLevels_lengths (N : Nat) (db : MemoryDb) (key : List Nat) :
    ∀ (levels : List Nat) (current last : Node) (parents : List MHash)
      (siblings : List Node),
      MSSMT.walkLevels N db key levels current = some (.ok (last, parents, siblings)) →
      parents.length = levels.length ∧ siblings.length = levels.length := by
  intro levels
  induction levels with
  | nil =>
    intro current last parents siblings h
    simp only [MSSMT.walkLevels, Option.some.injEq, Except.ok.injEq, Prod.mk.injEq] at h
    obtain ⟨-, h2, h3⟩ := h
    subst h2; subst h3
    exact ⟨rfl, rfl⟩
  | cons i rest ih =>
    intro current last parents siblings h
    simp only [MSSMT.walkLevels] at h
    split at h
    · cases h
    · cases h
    · split at h
      · cases h
      · cases h
      · rename_i last2 parents2 siblings2 heq
        simp only [Option.some.injEq, Except.ok.injEq, Prod.mk.injEq] at h
        obtain ⟨-, h2, h3⟩ := h
        subst h2; subst h3
        obtain ⟨hp, hs⟩ := ih _ _ _ _ heq
        simp [hp, hs]

theorem walk_down_lengths (N : Nat) (db : MemoryDb) (key : List Nat)
    (lf : Leaf) (parents : List MHash) (siblings : List Node)
    (h : MSSMT.walk_down N db key = some (.ok (lf, parents, siblings))) :
    parents.length = 8 * N ∧ siblings.length = 8 * N := by
  simp only [MSSMT.walk_down] at h
  split at h
  · cases h
  · split at h
    · cases h
    · cases h
    · rename_i last2 parents2 siblings2 heq
      split at h
      · simp only [Option.some.injEq, Except.ok.injEq, Prod.mk.injEq] at h
        obtain ⟨-, h2, h3⟩ := h
        subst h2; subst h3
        have := walkLevels_lengths N db key (List.range (8 * N)) _ _ _ _ heq
        simpa using this
      · cases h

/-- Claim C7 (amended): for every state on which `merkle_proof` succeeds, the
produced proof has exactly `8*N` siblings and is the reverse of the walk-down
sibling trace, whose entry at position `j` is the sibling recorded at walk
step `j` (step 0 pairing the root's child on the key's path with its
sibling, step `8*N - 1` the leaf with its sibling). Hence index 0 of the
proof is the sibling of the leaf and index `8*N - 1` is the sibling of the
root's child on the key's path: leaf-adjacent first, the reverse of the
order the claim states. -/
theorem claim_C7_proof_order (N : Nat) (db : MemoryDb) (key : List Nat) (p : List Node)
    (h : MSSMT.merkle_proof N db key = some (.ok p)) :
    p.length = 8 * N ∧
    ∃ lf parents siblings,
      MSSMT.walk_down N db key = some (.ok (lf, parents, siblings)) ∧
      siblings.length = 8 * N ∧ p = siblings.reverse ∧
      (∀ i, i < 8 * N → p[i]? = siblings[8 * N - 1 - i]?) := by
  simp only [MSSMT.merkle_proof] at h
  split at h
  · cases h
  · cases h
  · rename_i lf parents siblings heq
    simp only [Option.some.injEq, Except.ok.injEq] at h
    subst h
    obtain ⟨hp, hs⟩ := walk_down_lengths N db key lf parents siblings heq
    refine ⟨by simpa using hs, lf, parents, siblings, heq, hs, rfl, ?_⟩
    intro i hi
    have hlt : i < siblings.length := by omega
    rw [List.getElem?_reverse hlt, hs]

theorem get_children_errors (N : Nat) (db : MemoryDb) (ht : Nat) (k : MHash)
    (e : TreeError) (he : MemoryDb.get_children N db ht k = some (.error e)) :
    e = .NodeNotFound ∨ e = .ExpectedBranch := by
  simp only [MemoryDb.get_children] at he
  split at he
  · cases he
  · split at he
    · cases he
    · split at he
      · cases he
        exact Or.inl rfl
      · split at he
        · split at he
          · cases he
          · cases he
        · cases he
          exact Or.inr rfl

theorem walkLevels_errors (N : Nat) (db : MemoryDb) (key : List Nat) :
    ∀ (levels : List Nat) (current : Node) (e : TreeError),
      MSSMT.walkLevels N db key levels current = some (.error e) →
      e = .NodeNotFound ∨ e = .ExpectedBranch := by
  intro levels
  induction levels with
  | nil =>
    intro current e h
    simp [MSSMT.walkLevels] at h
  | cons i rest ih =>
    intro current e h
    simp only [MSSMT.walkLevels] at h
    split at h
    · cases h
    · rename_i e2 heq
      cases h
      exact get_children_errors N db i current.hash _ heq
    · split at h
      · cases h
      · rename_i e2 heq
        cases h
        exact ih _ _ heq
      · cases h

theorem walk_down_errors (N : Nat) (db : MemoryDb) (key : List Nat) (e : TreeError)
    (h : MSSMT.walk_down N db key = some (.error e)) :
    e = .NodeNotFound ∨ e = .ExpectedBranch ∨ e = .ExpectedLeaf := by
  simp only [MSSMT.walk_down] at h
  split at h
  · cases h
  · split at h
    · cases h
    · rename_i e2 heq
      cases h
      rcases walkLevels_errors N db key _ _ _ heq with h1 | h1
      · exact Or.inl h1
      · exact Or.inr (Or.inl h1)
    · split at h
      · cases h
      · cases h
        exact Or.inr (Or.inr rfl)

theorem walk_up_errors (N : Nat) (key : List Nat) (start : Leaf) (siblings : List Node)
    (e : TreeError) (h : MSSMT.walk_up N key start siblings = some (.error e)) :
    e = .ExpectedBranch := by
  simp only [MSSMT.walk_up] at h
  split at h
  · cases h
  · split at h
    · cases h
    · cases h
      rfl

/-- Claim C4 for the regular engine, both directions: with the root resolved
to `r` (as `MSSMT::root` does), an overflow of `leaf.sum + r.sum` makes
`insert` return `SumOverflow` with the store untouched, and conversely every
`SumOverflow` outcome of `insert` stems from that check, with the store
returned unchanged. -/
theorem insert_sumoverflow_regular (N : Nat) (db : MemoryDb) (key : List Nat)
    (leafN : Leaf) (r : Node) (hr : MSSMT.root N db = some r) :
    (U64MAX < leafN.sum + r.sum →
      MSSMT.insert N db key leafN = some (.error .SumOverflow, db)) ∧
    (∀ res db', MSSMT.insert N db key leafN = some (res, db') →
      res = .error .SumOverflow → U64MAX < leafN.sum + r.sum ∧ db' = db) := by
  constructor
  · intro hov
    simp only [MSSMT.insert, hr]
    rw [if_pos hov]
  · intro res db' h hres
    subst hres
    simp only [MSSMT.insert, hr] at h
    split at h
    · rename_i hov
      cases h
      exact ⟨hov, rfl⟩
    · split at h
      · cases h
      · rename_i e2 heq
        cases h
        rcases walk_down_errors N db key _ heq with h1 | h1 | h1 <;> cases h1
      · split at h
        · cases h
        · rename_i e2 heq
          cases h
          cases walk_up_errors N key leafN _ _ heq
        · split at h
          · cases h
          · cases h

theorem insert_leaf_no_overflow (N : Nat) :
    ∀ (fuel : Nat) (db : MemoryDb) (key : List Nat) (height : Nat) (rh : MHash)
      (leafN : Leaf) (res : Except TreeError Node) (db' : MemoryDb),
      CompactMSSMT.insert_leaf N fuel db key height rh leafN = some (res, db') →
      res ≠ .error .SumOverflow := by
  intro fuel
  induction fuel with
  | zero =>
    intro db key height rh leafN res db' h
    simp [CompactMSSMT.insert_leaf] at h
  | succ fuel ih =>
    intro db key height rh leafN res db' h hcon
    subst hcon
    simp only [CompactMSSMT.insert_leaf] at h
    split at h
    · cases h
    · rename_i e2 heq
      cases h
      rcases get_children_errors N db height rh _ heq with h1 | h1 <;> cases h1
    · split at h
      · cases h
      · rename_i e2 db2 heq2
        cases h
        split at heq2
        · split at heq2
          · cases heq2
          · split at heq2
            · cases heq2
            · split at heq2
              · cases heq2
              · rename_i heq3
                cases heq2
                exact ih _ _ _ _ _ _ _ heq3 rfl
              · cases heq2
        · split at heq2
          · cases heq2
          · split at heq2
            · cases heq2
            · cases heq2
        · split at heq2
          · cases heq2
          · split at heq2
            · cases heq2
            · split at heq2
              · cases heq2
              · rename_i heq3
                cases heq2
                exact ih _ _ _ _ _ _ _ heq3 rfl
              · cases heq2
        · cases heq2
      · rename_i n2 db2 heq2
        split at h
        · cases h
        · cases h

/-- Claim C4 for the compact engine, both directions, stated like
`insert_sumoverflow_regular` (the compact `insert` resolves its root the same
way and checks `root.sum + leaf.sum` before any mutation). -/
theorem insert_sumoverflow_compact (N : Nat) (db : MemoryDb) (key : List Nat)
    (leafN : Leaf) (r : Node) (hr : MSSMT.root N db = some r) :
    (U64MAX < r.sum + leafN.sum →
      CompactMSSMT.insert N db key leafN = some (.error .SumOverflow, db)) ∧
    (∀ res db', CompactMSSMT.insert N db key leafN = some (res, db') →
      res = .error .SumOverflow → U64MAX < r.sum + leafN.sum ∧ db' = db) := by
  constructor
  · intro hov
    simp only [CompactMSSMT.insert, hr]
    rw [if_pos hov]
  · intro res db' h hres
    subst hres
    simp only [CompactMSSMT.insert, hr] at h
    split at h
    · rename_i hov
      cases h
      exact ⟨hov, rfl⟩
    · split at h
      · cases h
      · rename_i e2 db2 heq
        cases h
        exact absurd rfl (insert_leaf_no_overflow N _ _ _ _ _ _ _ _ heq)
      · cases h

/-- Claim C1 fails on the code: running the same three successful insertions
(`opsEquivBreak`) through both engines yields roots with different sums
(2 for the regular engine, 3 for the compact engine) and different hashes.
The compact engine stores compact leaves keyed only by their hash, so the
second insertion (same value, key differing only in bit 0) overwrites the
compact leaf's key field, and the third insertion merges the two keys at the
wrong level instead of replacing. -/
theorem claim_C1_root_divergence :
    (rootAfter opsEquivBreak).map Node.sum = some 2 ∧
    (compactRootAfter opsEquivBreak).map Node.sum = some 3 ∧
    (rootAfter opsEquivBreak).map Node.hash ≠
      (compactRootAfter opsEquivBreak).map Node.hash := by decide

/-- Claim C2 fails on the code: after the five successful operations of
`opsShared` the key `[2]` is in the tree with leaf `([2], 2)` (its final
mapping), `merkle_proof [2]` succeeds, and yet verifying the produced proof
against the current root fails with `InvalidMerkleProof`: the deletion of key
`[1]` removed branch store entries that the hash-identical subtree of keys
`[0]`/`[2]` still needs, so the walk-down silently falls back to empty
siblings. -/
theorem claim_C2_proof_verification_fails :
    opsFinalMap opsShared [2] = .NonEmpty [2] 2 ∧
    ((MSSMT.runOps 1 MemoryDb.new opsShared).bind (fun db =>
      match MSSMT.merkle_proof 1 db [2], MSSMT.root 1 db with
      | some (.ok p), some r => verify_merkle_proof 1 [2] (.NonEmpty [2] 2) p r
      | _, _ => none)) = some (.error .InvalidMerkleProof) := by decide

set_option maxRecDepth 8000 in
/-- Claim C3 fails on the code: `opsShared2` and `opsDirect` are two
successful operation sequences with the same final key-to-leaf mapping (all
256 single-byte keys agree), yet the regular engine's resulting roots differ:
sum 0 (an empty root) versus sum 3, with different hashes. -/
theorem claim_C3_history_dependence :
    (∀ b ∈ List.range 256, opsFinalMap opsShared2 [b] = opsFinalMap opsDirect [b]) ∧
    (rootAfter opsShared2).map Node.sum = some 0 ∧
    (rootAfter opsDirect).map Node.sum = some 3 ∧
    (rootAfter opsShared2).map Node.hash ≠ (rootAfter opsDirect).map Node.hash := by decide

/-- Claim C4: for both engines, with the root resolved to `r` the way the
source's `root()` does, `insert` returns `SumOverflow` exactly when the sum
of the root's sum and the incoming leaf's sum exceeds `u64::MAX`, and on that
error the returned store is the unchanged input store (the check precedes
every store access). -/
theorem claim_C4_sum_overflow_guard (N : Nat) (db : MemoryDb) (key : List Nat)
    (leafN : Leaf) (r : Node) (hr : MSSMT.root N db = some r) :
    ((U64MAX < leafN.sum + r.sum ↔
        MSSMT.insert N db key leafN = some (.error .SumOverflow, db)) ∧
      (∀ res db', MSSMT.insert N db key leafN = some (res, db') →
        res = .error .SumOverflow → db' = db)) ∧
    ((U64MAX < r.sum + leafN.sum ↔
        CompactMSSMT.insert N db key leafN = some (.error .SumOverflow, db)) ∧
      (∀ res db', CompactMSSMT.insert N db key leafN = some (res, db') →
        res = .error .SumOverflow → db' = db)) := by
  obtain ⟨hr1, hr2⟩ := insert_sumoverflow_regular N db key leafN r hr
  obtain ⟨hc1, hc2⟩ := insert_sumoverflow_compact N db key leafN r hr
  refine ⟨⟨⟨hr1, fun h => (hr2 _ _ h rfl).1⟩, fun res db' h hres => (hr2 _ _ h hres).2⟩,
    ⟨⟨hc1, fun h => (hc2 _ _ h rfl).1⟩, fun res db' h hres => (hc2 _ _ h hres).2⟩⟩

/-- Concrete instance of claim C4 at `N = 1`: on a store whose root already
sums to `u64::MAX`, inserting a leaf of sum 1 anywhere trips the guard in
both engines and leaves the store unchanged. -/
theorem claim_C4_witness :
    MSSMT.root 1 dbMaxSum = some rootMaxSum ∧
    (((U64MAX < (Leaf.NonEmpty [1] 1).sum + rootMaxSum.sum ↔
        MSSMT.insert 1 dbMaxSum [1] (.NonEmpty [1] 1) =
          some (.error .SumOverflow, dbMaxSum)) ∧
      (∀ res db', MSSMT.insert 1 dbMaxSum [1] (.NonEmpty [1] 1) = some (res, db') →
        res = .error .SumOverflow → db' = dbMaxSum)) ∧
    ((U64MAX < rootMaxSum.sum + (Leaf.NonEmpty [1] 1).sum ↔
        CompactMSSMT.insert 1 dbMaxSum [1] (.NonEmpty [1] 1) =
          some (.error .SumOverflow, dbMaxSum)) ∧
      (∀ res db', CompactMSSMT.insert 1 dbMaxSum [1] (.NonEmpty [1] 1) = some (res, db') →
        res = .error .SumOverflow → db' = dbMaxSum))) :=
  ⟨by decide, claim_C4_sum_overflow_guard 1 dbMaxSum [1] (.NonEmpty [1] 1) rootMaxSum (by decide)⟩

set_option maxRecDepth 8000 in
/-- Claim C5 fails on the code: after the six successful operations of
`opsShared2`, the sum over all inhabited leaves of the final mapping is 3,
but the root's sum is 0 — the hash-aliased deletions broke sum conservation. -/
theorem claim_C5_sum_conservation_fails :
    totalLeafSum opsShared2 = 3 ∧
    (rootAfter opsShared2).map Node.sum = some 0 := by decide

/-- Concrete instance of the amended claim C7 at `N = 1` on the store with
one inserted leaf and the absent key `[1]`. -/
theorem claim_C7_witness :
    proofOneInsert.length = 8 * 1 ∧
    ∃ lf parents siblings,
      MSSMT.walk_down 1 dbOneInsert [1] = some (.ok (lf, parents, siblings)) ∧
      siblings.length = 8 * 1 ∧ proofOneInsert = siblings.reverse ∧
      (∀ i, i < 8 * 1 → proofOneInsert[i]? = siblings[8 * 1 - 1 - i]?) :=
  claim_C7_proof_order 1 dbOneInsert [1] proofOneInsert (by decide)

/-- Claim C7's stated ordering fails on the code: on `dbOneInsert` (one leaf
of sum 1 under the root's left child) and key `[1]` (whose bit 0 is 1, so the
root's child on the path is the right child and its sibling the sum-1 left
child), the produced proof carries the empty sum-0 leaf sibling at index 0
and the sum-1 sibling of the root's child at index `8*N - 1 = 7` — the
reverse of the claimed order. -/
theorem claim_C7_counterexample :
    MSSMT.merkle_proof 1 dbOneInsert [1] = some (.ok proofOneInsert) ∧
    MSSMT.root 1 dbOneInsert =
      some (Branch.new (CompactLeaf.walkUpAux 1 [0] (.NonEmpty [1] 1) 7)
        (EmptyTree.node 7)) ∧
    bit_index 0 [1] = 1 ∧
    (CompactLeaf.walkUpAux 1 [0] (.NonEmpty [1] 1) 7).sum = 1 ∧
    (proofOneInsert[0]?).map Node.sum = some 0 ∧
    proofOneInsert[0]? ≠ some (CompactLeaf.walkUpAux 1 [0] (.NonEmpty [1] 1) 7) ∧
    proofOneInsert[7]? = some (CompactLeaf.walkUpAux 1 [0] (.NonEmpty [1] 1) 7) := by decide

/-- Claim C9 fails on the code, in both engines: inserting the identical leaf
twice at the same key (`opsDup`, both insertions succeeding) leaves the
regular store with its whole path deleted (insertions are flushed before
deletions), so `get` on that very key returns `NodeNotFound`; and the compact
engine's walk-down on a freshly constructed store (no root ever written)
returns `NodeNotFound` instead of walking the empty tree. -/
theorem claim_C9_get_nodenotfound :
    ((MSSMT.runOps 1 MemoryDb.new opsDup).bind (fun db => MSSMT.get 1 db [0]))
      = some (.error .NodeNotFound) ∧
    CompactMSSMT.merkle_proof 1 MemoryDb.new [0] = some (.error .NodeNotFound) := by decide

end MSSMTModel
